import Mathlib

/-!
# Verification of the vespalib generation handler

Shallow embedding of `GenerationHandler` from
`src/vespalib/src/vespa/vespalib/util/generationhandler.cpp`.

Pointers are modelled by indices into an arena (`holds : List GenerationHold`);
`nullptr` is `none`.  The atomic refcount word of a hold record is a `Nat`
(the packed encoding `2 * readers + invalidBit` from the source).  C++
`assert` failures are modelled by `Option`-valued operations returning `none`.
The class declarations live in `generationhandler.h`, which is not part of the
excerpt; the few header-only members (`valid`, `getNextGeneration`,
`Guard::cleanup`, `Guard::valid`) are modelled from the spec and marked as such.
-/

namespace Vespalib

/-- One hold record: the packed atomic refcount word, the generation tag and
the link to the next-newer record (an arena index, `none` = `nullptr`). -/
structure GenerationHold where
  refCount : Nat
  generation : Nat
  next : Option Nat
deriving Repr, DecidableEq

/-- Modelled from the spec: bit 0 of the packed word is the validity flag,
`1` meaning invalid; a word is valid when bit 0 is clear.  (The predicate
`GenerationHold::valid` is declared in the missing header.) -/
def valid (refs : Nat) : Bool := refs % 2 == 0

/-- Source `GenerationHold::getRefCount`: the live-reader count, `_refCount / 2`. -/
def getRefCountW (refs : Nat) : Nat := refs / 2

/-- Source `GenerationHold::setValid`: `assert(!valid(_refCount)); _refCount.fetch_sub(1)`.
The assert is modelled as `none`. -/
def setValidW (refs : Nat) : Option Nat :=
  if valid refs then none else some (refs - 1)

/-- Source `GenerationHold::setInvalid`: reads the word, asserts it is valid
(modelled as `none`), fails when any reader is present (`refs != 0`), and
otherwise does the compare-and-swap from `0` to `1`.  In this sequential
embedding the observed word is still current, so the CAS succeeds.
Returns the success flag and the resulting word. -/
def setInvalidW (refs : Nat) : Option (Bool × Nat) :=
  if valid refs then
    if refs ≠ 0 then some (false, refs) else some (true, 1)
  else
    none

/-- Source `GenerationHold::release`: `_refCount.fetch_sub(2)`.  Every reachable
caller holds a pin, so the word is at least 2 and `Nat` subtraction is exact. -/
def releaseW (refs : Nat) : Nat := refs - 2

/-- Source `GenerationHold::acquire`: `fetch_add(2)` and inspect the pre-increment
word's validity bit; on the invalid case roll the increment back with
`release()`.  Returns the success flag and the resulting word. -/
def acquireW (refs : Nat) : Bool × Nat :=
  if valid refs then (true, refs + 2) else (false, releaseW (refs + 2))

/-- Source `GenerationHold::copy` on a non-null record: `fetch_add(2)` followed by
`assert(valid(oldRefCount))` (modelled as `none`). -/
def copyW (refs : Nat) : Option Nat :=
  if valid refs then some (refs + 2) else none

/-- Handler state: the arena of all allocated hold records plus the fields of
`GenerationHandler` (`_generation`, `_firstUsedGeneration`, `_last`, `_first`,
`_free`, `_numHolds`).  The generation counter is kept as an unbounded `Nat`;
the spec describes it only as a monotonically increasing integer. -/
structure GenerationHandler where
  holds : List GenerationHold
  generation : Nat
  firstUsedGeneration : Nat
  last : Nat
  first : Nat
  free : Option Nat
  numHolds : Nat
deriving Repr, DecidableEq

/-- Read a record from the arena (a dereference of a record pointer). -/
def getHold (h : GenerationHandler) (i : Nat) : GenerationHold :=
  h.holds.getD i ⟨0, 0, none⟩

/-- Write a record back to the arena (a mutation through a record pointer). -/
def setHold (h : GenerationHandler) (i : Nat) (r : GenerationHold) : GenerationHandler :=
  { h with holds := h.holds.set i r }

/-- The `GenerationHandler` constructor: one fresh record (its word starts at
1, i.e. invalid with no readers), tagged with generation 0 and then made
valid (`setValid` turns the word into 0). -/
def initialHandler : GenerationHandler :=
  { holds := [⟨0, 0, none⟩], generation := 0, firstUsedGeneration := 0,
    last := 0, first := 0, free := none, numHolds := 1 }

/-- The loop body of `GenerationHandler::updateFirstUsedGeneration`: while
`_first != _last`, try `setInvalid()` on `_first`; on success move the record
to the freelist and advance `_first` to its `next`; on failure (or on the
assert cases that the handler invariant rules out) stop.  The C++ loop is
unguarded; fuel bounds the recursion and is never exhausted on well-formed
states (the chain is `Nodup` inside the arena). -/
def updateLoop : Nat → GenerationHandler → GenerationHandler
  | 0, h => h
  | fuel + 1, h =>
    if h.first = h.last then h
    else
      let frec := getHold h h.first
      match setInvalidW frec.refCount with
      | some (true, w) =>
        match frec.next with
        | none => h
        | some nxt =>
          let h' := setHold h h.first { frec with refCount := w, next := h.free }
          updateLoop fuel { h' with first := nxt, free := some h.first }
      | _ => h

/-- Source `GenerationHandler::updateFirstUsedGeneration`: run the retirement sweep,
then store the generation tag of the (new) `_first` into
`_firstUsedGeneration`. -/
def updateFirstUsedGeneration (h : GenerationHandler) : GenerationHandler :=
  let h' := updateLoop h.holds.length h
  { h' with firstUsedGeneration := (getHold h' h'.first).generation }

/-- Source `GenerationHandler::incGeneration`: compute the next generation; if the
last record has no readers, morph it in place to the new generation;
otherwise pop a record from the freelist (or allocate a fresh one), tag it,
clear its next link, make it valid, link it behind the old last record and
publish it as `_last`.  Either way finish with the retirement sweep.
(`getNextGeneration` and `set_generation` are header-only accessors modelled
from the spec: the counter is incremented by one per advance.) -/
def incGeneration (h : GenerationHandler) : GenerationHandler :=
  let ngen := h.generation + 1
  let lastRec := getHold h h.last
  if getRefCountW lastRec.refCount = 0 then
    updateFirstUsedGeneration
      (setHold { h with generation := ngen } h.last { lastRec with generation := ngen })
  else
    let alloc : GenerationHandler × Nat :=
      match h.free with
      | none => ({ h with holds := h.holds ++ [⟨1, 0, none⟩], numHolds := h.numHolds + 1 },
                 h.holds.length)
      | some fi => ({ h with free := (getHold h fi).next }, fi)
    let h1 := alloc.1
    let ni := alloc.2
    let nrec := getHold h1 ni
    let nword := (setValidW nrec.refCount).getD nrec.refCount
    let h2 := setHold h1 ni { refCount := nword, generation := ngen, next := none }
    let h3 := setHold h2 h2.last { getHold h2 h2.last with next := some ni }
    updateFirstUsedGeneration { h3 with generation := ngen, last := ni }

/-- A `Guard`: an optional pinned record (arena index); `none` is an empty
guard (`_hold == nullptr`). -/
structure Guard where
  hold : Option Nat
deriving Repr, DecidableEq

/-- Modelled from the spec: `Guard::cleanup` releases the currently held pin
via `release()`, if any (header-only member). -/
def guardCleanup (h : GenerationHandler) (g : Guard) : GenerationHandler :=
  match g.hold with
  | none => h
  | some i =>
    let r := getHold h i
    setHold h i { r with refCount := releaseW r.refCount }

/-- Source `Guard::Guard(GenerationHold *hold)`: `_hold = hold->acquire()`; the
guard is empty when the acquire lost the race. -/
def guardFromHold (h : GenerationHandler) (i : Nat) : GenerationHandler × Guard :=
  let r := getHold h i
  let a := acquireW r.refCount
  (setHold h i { r with refCount := a.2 }, ⟨if a.1 then some i else none⟩)

/-- Source `GenerationHandler::takeGuard`: acquire on the current `_last` record.
The source retries in a loop when the acquire fails; in this sequential
embedding a retry re-runs the identical attempt (the failed acquire restores
the word), and `takeGuard_succeeds` below shows the retry branch is
unreachable from well-formed states, so a single attempt is the faithful
sequential meaning of the loop. -/
def takeGuard (h : GenerationHandler) : GenerationHandler × Guard :=
  guardFromHold h h.last

/-- Source `GenerationHold::copy`: a null record copies to null with no memory
effect; otherwise `fetch_add(2)` plus the validity assert (`copyW`). -/
def holdCopy (h : GenerationHandler) (r : Option Nat) :
    Option (GenerationHandler × Option Nat) :=
  match r with
  | none => some (h, none)
  | some i =>
    let rec0 := getHold h i
    match copyW rec0.refCount with
    | none => none
    | some w => some (setHold h i { rec0 with refCount := w }, some i)

/-- Source `Guard::Guard(const Guard &rhs)`: `_hold = GenerationHold::copy(rhs._hold)`. -/
def guardCopyCtor (h : GenerationHandler) (src : Guard) :
    Option (GenerationHandler × Guard) :=
  (holdCopy h src.hold).map (fun p => (p.1, ⟨p.2⟩))

/-- Source `Guard::operator=(const Guard &)`: when `&rhs != this` (the `sameObj`
flag models address equality), `cleanup()` then copy the source's record;
otherwise the body is skipped.  Returns the state and the assigned guard. -/
def guardCopyAssign (h : GenerationHandler) (dst src : Guard) (sameObj : Bool) :
    Option (GenerationHandler × Guard) :=
  if sameObj then some (h, dst)
  else
    let h1 := guardCleanup h dst
    (holdCopy h1 src.hold).map (fun p => (p.1, ⟨p.2⟩))

/-- Source `Guard::operator=(Guard &&)`: when `&rhs != this`, `cleanup()`, steal the
source's record and null the source; otherwise the body is skipped.  Returns
the state, the assigned guard and the source guard's final value. -/
def guardMoveAssign (h : GenerationHandler) (dst src : Guard) (sameObj : Bool) :
    GenerationHandler × Guard × Guard :=
  if sameObj then (h, dst, src)
  else (guardCleanup h dst, ⟨src.hold⟩, ⟨none⟩)

/-- Source `GenerationHandler::getGenerationRefCount(generation_t)`: the chain walk
from `_first` following `next` until `nullptr`, returning the ref count of
the record tagged `gen`.  Fuel bounds the walk (never exhausted on
well-formed states). -/
def refCountWalk : Nat → GenerationHandler → Option Nat → Nat → Nat
  | _, _, none, _ => 0
  | 0, _, some _, _ => 0
  | fuel + 1, h, some i, gen =>
    let r := getHold h i
    if r.generation = gen then getRefCountW r.refCount
    else refCountWalk fuel h r.next gen

/-- Modelled from the spec: the generation counter's representable range.
The header's `generation_t`/`sgeneration_t` typedefs are not in the excerpt;
the spec prescribes comparison "by signed subtraction ... tolerant of counter
wraparound within the representable range", modelled here as 64-bit signed
subtraction. `sgtGen a b` is `(sgeneration_t)(a - b) > 0`. -/
def sgtGen (a b : Nat) : Bool :=
  let d := (a + (2 ^ 64 - b % 2 ^ 64)) % 2 ^ 64
  decide (0 < d ∧ d < 2 ^ 63)

/-- Source `GenerationHandler::getGenerationRefCount(generation_t gen)`: returns 0
when `gen` is newer than the current generation or older than
`_firstUsedGeneration` (signed comparisons), otherwise walks the chain. -/
def getGenerationRefCount (h : GenerationHandler) (gen : Nat) : Nat :=
  if sgtGen gen h.generation then 0
  else if sgtGen h.firstUsedGeneration gen then 0
  else refCountWalk h.holds.length h (some h.first) gen

/-! ## The sequential step machine

One writer and the readers are interleaved at operation granularity:
`takeG` takes a guard (appended to the list of live guards), `dropG k`
destroys the `k`-th live guard (its destructor runs `cleanup`), `advance`
is `incGeneration`. -/

/-- A handler together with the multiset of currently live guards. -/
structure SimState where
  handler : GenerationHandler
  guards : List Guard
deriving Repr, DecidableEq

/-- The operations of the interleaved protocol. -/
inductive Op where
  | takeG : Op
  | dropG : Nat → Op
  | advance : Op
deriving Repr, DecidableEq

/-- One interleaved step. -/
def step (st : SimState) (op : Op) : SimState :=
  match op with
  | .takeG =>
    let p := takeGuard st.handler
    ⟨p.1, st.guards ++ [p.2]⟩
  | .dropG k =>
    match st.guards.get? k with
    | none => st
    | some g => ⟨guardCleanup st.handler g, st.guards.eraseIdx k⟩
  | .advance => ⟨incGeneration st.handler, st.guards⟩

/-- Run a sequence of interleaved operations. -/
def run (st : SimState) (ops : List Op) : SimState := ops.foldl step st

/-- The initial state: a freshly constructed handler, no guards. -/
def initSim : SimState := ⟨initialHandler, []⟩

/-- Number of live guards pinning record `i`. -/
def pinsOf (gs : List Guard) (i : Nat) : Nat :=
  (gs.filter (fun g => g.hold == some i)).length

/-- The chain links: consecutive elements are linked by `next` and the last
element's `next` is `nullptr`. -/
def linksOk (h : GenerationHandler) : List Nat → Bool
  | [] => true
  | [i] => (getHold h i).next == none
  | i :: j :: rest => ((getHold h i).next == some j) && linksOk h (j :: rest)

/-- The physical chain, read out of the state by following `next` from
`_first` (with fuel, as in `refCountWalk`). -/
def chainFrom : Nat → GenerationHandler → Nat → List Nat
  | 0, _, i => [i]
  | fuel + 1, h, i =>
    match (getHold h i).next with
    | none => [i]
    | some j => i :: chainFrom fuel h j

/-- The live chain of a handler state. -/
def chainList (h : GenerationHandler) : List Nat :=
  chainFrom h.holds.length h h.first

/-- Well-formedness of a handler with live guards `gs`, chain `c` and
freelist `f` (both lists of arena indices, oldest first for `c`, freelist
head first for `f`), except for the watermark equation (which is broken
transiently inside `incGeneration`, between the morph/link step and the
sweep). -/
def WFpre (h : GenerationHandler) (gs : List Guard) (c f : List Nat) : Prop :=
  c.head? = some h.first ∧
  c.getLast? = some h.last ∧
  linksOk h c = true ∧
  f.head? = h.free ∧
  linksOk h f = true ∧
  (∀ i ∈ c ++ f, i < h.holds.length) ∧
  (c ++ f).Nodup ∧
  (∀ i ∈ c, (getHold h i).refCount = 2 * pinsOf gs i) ∧
  (∀ i ∈ f, (getHold h i).refCount = 1) ∧
  c.Chain' (fun a b => (getHold h a).generation < (getHold h b).generation) ∧
  (getHold h h.last).generation = h.generation ∧
  (gs.all (fun g => g.hold.all (fun i => c.contains i)) = true)

/-- Full well-formedness: `WFpre` plus the watermark equation
(`_firstUsedGeneration` is the generation tag of `_first`). -/
def WF (h : GenerationHandler) (gs : List Guard) (c f : List Nat) : Prop :=
  WFpre h gs c f ∧ h.firstUsedGeneration = (getHold h h.first).generation

/-- A reachable-state invariant: some chain and freelist witness
well-formedness. -/
def Inv (st : SimState) : Prop :=
  ∃ c f, WF st.handler st.guards c f

/-- Length of the retired prefix of a sweep over chain `c`: the records
before the first one that still has readers; the last record is never
examined (`first != last` guards the loop). -/
def sweepLen (h : GenerationHandler) (c : List Nat) : Nat :=
  (c.dropLast.takeWhile (fun i => (getHold h i).refCount == 0)).length

end Vespalib

namespace Vespalib

/-! ## Word-level and guard-level claims -/

/-- C6: `acquire` adds 2 to the word and decides success from the
pre-increment value's validity bit; on the invalid case the increment is
rolled back, so a failed acquire leaves the word exactly what it was, and
adding 2 never changes bit 0 (validity before implies validity after). -/
theorem acquire_arithmetic (w : Nat) :
    acquireW w = (valid w, if valid w = true then w + 2 else w) ∧
    valid (w + 2) = valid w := by
  constructor
  · unfold acquireW releaseW
    by_cases h : valid w = true <;> simp [h]
  · simp [valid, Nat.add_mod_right]

/-- C5 (counterexample): on an already-invalid word (`1`: invalid, count 0)
the claim predicts a `false` return with the word unchanged, but `setInvalid`
hits its `assert(valid(refs))` instead of returning. -/
theorem setInvalid_invalid_word_cex : setInvalidW 1 ≠ some (false, 1) := by decide

/-- C5 (amended): on a valid word with live readers (`count > 0`),
`setInvalid` fails, returns `false` and leaves the word unchanged; on an
already-invalid word the internal assertion fires instead of returning; it
returns `true` only via the compare-and-swap from the observed count-0 valid
word `0` to the invalid count-0 word `1`. -/
theorem setInvalid_behaviour (w : Nat) :
    (valid w = true → w ≠ 0 → setInvalidW w = some (false, w)) ∧
    (valid w = false → setInvalidW w = none) ∧
    (∀ b w', setInvalidW w = some (b, w') → b = true → w = 0 ∧ w' = 1) := by
  refine ⟨?_, ?_, ?_⟩
  · intro hv hne
    simp [setInvalidW, hv, hne]
  · intro hv
    simp [setInvalidW, hv]
  · intro b w' heq hb
    subst hb
    by_cases hv : valid w = true
    · by_cases hz : w = 0
      · subst hz
        simp [setInvalidW, valid] at heq
        refine ⟨rfl, ?_⟩
        omega
      · simp [setInvalidW, hv, hz] at heq
    · simp [setInvalidW, hv] at heq

/-- Witness for C5's amended theorem at the words 2 (valid, one reader),
1 (invalid) and 0 (valid, no readers). -/
theorem setInvalid_behaviour_witness :
    setInvalidW 2 = some (false, 2) ∧ setInvalidW 1 = none ∧ (0 = 0 ∧ 1 = 1) :=
  ⟨(setInvalid_behaviour 2).1 (by decide) (by decide),
   (setInvalid_behaviour 1).2.1 (by decide),
   (setInvalid_behaviour 0).2.2 true 1 (by decide) rfl⟩

/-- C9 (counterexample): copy assignment from an empty guard onto a guard
still pinning record 0 is not refcount-neutral: the destination's previous
pin is released by `cleanup()` (the word 2 drops to 0), so the resulting
state differs from the original. -/
theorem copy_empty_guard_cex :
    guardCopyAssign ⟨[⟨2, 0, none⟩], 0, 0, 0, 0, none, 1⟩ ⟨some 0⟩ ⟨none⟩ false
      ≠ some (⟨[⟨2, 0, none⟩], 0, 0, 0, 0, none, 1⟩, ⟨none⟩) := by decide

/-- C9 (amended): `GenerationHold::copy` of a null record returns null
without touching any word; copy construction from an empty guard yields an
empty guard with no state change; copy assignment from an empty source yields
an empty guard and modifies no refcount word beyond the `cleanup()` release
of the destination's own previous pin (no modification at all when the
destination is also empty). -/
theorem copy_empty_guard (h : GenerationHandler) (d : Guard) :
    holdCopy h none = some (h, none) ∧
    guardCopyCtor h ⟨none⟩ = some (h, ⟨none⟩) ∧
    guardCopyAssign h ⟨none⟩ ⟨none⟩ false = some (h, ⟨none⟩) ∧
    guardCopyAssign h d ⟨none⟩ false = some (guardCleanup h d, ⟨none⟩) :=
  ⟨rfl, rfl, rfl, rfl⟩

/-- C10: self-assignment, copy or move, is the identity: the `&rhs != this`
check skips the whole body, leaving the guard pinning the same record and the
record's refcount word untouched. -/
theorem guard_self_assign (h : GenerationHandler) (g : Guard) :
    guardCopyAssign h g g true = some (h, g) ∧
    guardMoveAssign h g g true = (h, g, g) :=
  ⟨rfl, rfl⟩

/-- C8 (Scenario B): from a fresh handler, taking a guard and advancing gives
generation 1, a chain of 2 records and watermark 0; dropping the guard and
advancing again gives generation 2 and retires the generation-0 record (word
1 on the freelist, chain collapsed to the newest record); the watermark
becomes 2, inside the claim's "1 or 2", because the generation-1 record had
no live readers left and was morphed to generation 2. -/
theorem scenario_b :
    (run initSim [Op.takeG, Op.advance]).handler.generation = 1 ∧
    (chainList (run initSim [Op.takeG, Op.advance]).handler).length = 2 ∧
    (run initSim [Op.takeG, Op.advance]).handler.firstUsedGeneration = 0 ∧
    (run initSim [Op.takeG, Op.advance, Op.dropG 0, Op.advance]).handler.generation = 2 ∧
    (getHold (run initSim [Op.takeG, Op.advance, Op.dropG 0, Op.advance]).handler 0).refCount = 1 ∧
    (getHold (run initSim [Op.takeG, Op.advance, Op.dropG 0, Op.advance]).handler 0).generation = 0 ∧
    (run initSim [Op.takeG, Op.advance, Op.dropG 0, Op.advance]).handler.free = some 0 ∧
    chainList (run initSim [Op.takeG, Op.advance, Op.dropG 0, Op.advance]).handler = [1] ∧
    ((run initSim [Op.takeG, Op.advance, Op.dropG 0, Op.advance]).handler.firstUsedGeneration = 1 ∨
     (run initSim [Op.takeG, Op.advance, Op.dropG 0, Op.advance]).handler.firstUsedGeneration = 2) ∧
    getRefCountW (getHold (run initSim [Op.takeG, Op.advance, Op.dropG 0]).handler 1).refCount = 0 ∧
    (run initSim [Op.takeG, Op.advance, Op.dropG 0, Op.advance]).handler.firstUsedGeneration = 2 := by
  decide

/-- C4 (counterexample): an advance issued while the last record's
live-reader count is 0 can shrink the chain: after `[takeG, advance, dropG 0]`
the chain holds 2 records and the last has no readers, yet the next advance
leaves a 1-record chain (the retirement sweep retired the head), so the
record count is not preserved; the generation still increases by exactly 1. -/
theorem morph_chain_shrink_cex :
    getRefCountW (getHold (run initSim [Op.takeG, Op.advance, Op.dropG 0]).handler
        (run initSim [Op.takeG, Op.advance, Op.dropG 0]).handler.last).refCount = 0 ∧
    (chainList (run initSim [Op.takeG, Op.advance, Op.dropG 0]).handler).length = 2 ∧
    (chainList (run initSim [Op.takeG, Op.advance, Op.dropG 0, Op.advance]).handler).length = 1 ∧
    (run initSim [Op.takeG, Op.advance, Op.dropG 0, Op.advance]).handler.generation =
      (run initSim [Op.takeG, Op.advance, Op.dropG 0]).handler.generation + 1 := by
  decide

end Vespalib

namespace Vespalib

/-! ## Helper lemmas: arena accesses -/

theorem setHold_length (h : GenerationHandler) (i : Nat) (r : GenerationHold) :
    (setHold h i r).holds.length = h.holds.length := by
  simp [setHold]

theorem getHold_setHold_self (h : GenerationHandler) (i : Nat) (r : GenerationHold)
    (hi : i < h.holds.length) : getHold (setHold h i r) i = r := by
  simp [getHold, setHold, List.getD_eq_getElem?_getD, List.getElem?_set_self, hi]

theorem getHold_setHold_ne (h : GenerationHandler) (i j : Nat) (r : GenerationHold)
    (hne : j ≠ i) : getHold (setHold h i r) j = getHold h j := by
  simp [getHold, setHold, List.getD_eq_getElem?_getD, List.getElem?_set_ne (Ne.symm hne)]

theorem valid_two_mul (n : Nat) : valid (2 * n) = true := by
  simp [valid, Nat.mul_mod_right]

/-! ## Helper lemmas: links, chains, pins -/

theorem linksOk_cons (h : GenerationHandler) (a : Nat) (l : List Nat) :
    linksOk h (a :: l) = true ↔ (getHold h a).next = l.head? ∧ linksOk h l = true := by
  cases l with
  | nil => simp [linksOk]
  | cons b t => simp [linksOk, Bool.and_eq_true]

theorem linksOk_congr (h h' : GenerationHandler) (l : List Nat)
    (hn : ∀ x ∈ l, (getHold h' x).next = (getHold h x).next) :
    linksOk h' l = linksOk h l := by
  induction l with
  | nil => rfl
  | cons a t ih =>
    cases t with
    | nil => simp [linksOk, hn a (by simp)]
    | cons b t' =>
      have ht : ∀ x ∈ b :: t', (getHold h' x).next = (getHold h x).next := by
        intro x hx
        exact hn x (by simp [hx])
      simp [linksOk, hn a (by simp), ih ht]

theorem chainGen_congr (h h' : GenerationHandler) (l : List Nat)
    (hg : ∀ x ∈ l, (getHold h' x).generation = (getHold h x).generation)
    (hc : l.Chain' (fun a b => (getHold h a).generation < (getHold h b).generation)) :
    l.Chain' (fun a b => (getHold h' a).generation < (getHold h' b).generation) := by
  induction l with
  | nil => simp
  | cons a t ih =>
    cases t with
    | nil => simp
    | cons b t' =>
      rw [List.chain'_cons] at hc ⊢
      refine ⟨?_, ?_⟩
      · rw [hg a (by simp), hg b (by simp)]
        exact hc.1
      · exact ih (fun x hx => hg x (by simp [hx])) hc.2

theorem pinsOf_pos (gs : List Guard) (g : Guard) (i : Nat) (hg : g ∈ gs)
    (hh : g.hold = some i) : 0 < pinsOf gs i := by
  have hmem : g ∈ gs.filter (fun g' => g'.hold == some i) := by
    simp [List.mem_filter, hg, hh]
  exact List.length_pos.mpr (List.ne_nil_of_mem hmem)

theorem pinsOf_eq_zero (gs : List Guard) (c : List Nat) (i : Nat)
    (hall : gs.all (fun g => g.hold.all (fun x => c.contains x)) = true)
    (hni : i ∉ c) : pinsOf gs i = 0 := by
  rw [pinsOf, List.length_eq_zero, List.filter_eq_nil_iff]
  intro g hg
  rw [List.all_eq_true] at hall
  have := hall g hg
  intro hbeq
  rw [beq_iff_eq] at hbeq
  rw [hbeq] at this
  simp [Option.all] at this
  exact hni (by simpa [List.contains] using this)

theorem length_le_of_nodup_lt (l : List Nat) (n : Nat) (hd : l.Nodup)
    (hb : ∀ x ∈ l, x < n) : l.length ≤ n := by
  classical
  have h1 : l.toFinset.card = l.length := List.toFinset_card_of_nodup hd
  have h2 : l.toFinset ⊆ Finset.range n := by
    intro x hx
    rw [List.mem_toFinset] at hx
    simpa [Finset.mem_range] using hb x hx
  calc l.length = l.toFinset.card := h1.symm
    _ ≤ (Finset.range n).card := Finset.card_le_card h2
    _ = n := Finset.card_range n

theorem mem_of_getLast?_eq (l : List Nat) (a : Nat) (hl : l.getLast? = some a) : a ∈ l := by
  obtain ⟨hne, heq⟩ := List.mem_getLast?_eq_getLast (l := l) (x := a) (Option.mem_def.mpr hl)
  rw [heq]
  exact List.getLast_mem hne

theorem headGen_le_lastGen (A : Nat → Nat) :
    ∀ (l : List Nat), l.Chain' (fun a b => A a < A b) → ∀ x y,
      l.head? = some x → l.getLast? = some y → A x ≤ A y := by
  intro l
  induction l with
  | nil =>
    intro _ x y hx _
    simp at hx
  | cons a t ih =>
    intro hc x y hx hy
    cases t with
    | nil =>
      rw [List.head?_cons, Option.some_inj] at hx
      rw [List.getLast?_singleton, Option.some_inj] at hy
      subst hx
      subst hy
      exact le_refl _
    | cons b t' =>
      rw [List.head?_cons, Option.some_inj] at hx
      subst hx
      rw [List.chain'_cons] at hc
      rw [List.getLast?_cons_cons] at hy
      exact le_of_lt (lt_of_lt_of_le hc.1 (ih hc.2 b y rfl hy))

theorem chainGen_update_last (A B : Nat → Nat) :
    ∀ (l : List Nat) (a : Nat), l.Chain' (fun x y => A x < A y) →
      l.getLast? = some a → l.Nodup →
      (∀ x ∈ l, x ≠ a → B x = A x) → A a ≤ B a →
      l.Chain' (fun x y => B x < B y) := by
  intro l
  induction l with
  | nil => intro a _ hl; simp at hl
  | cons p t ih =>
    intro a hc hl hd hB hBa
    cases t with
    | nil => simp
    | cons q t' =>
      rw [List.chain'_cons] at hc ⊢
      rw [List.getLast?_cons_cons] at hl
      have hqmem : a ∈ q :: t' := mem_of_getLast?_eq _ _ hl
      have hpa : p ≠ a := by
        rw [List.nodup_cons] at hd
        intro hpe
        exact hd.1 (hpe ▸ hqmem)
      have hBp : B p = A p := hB p (by simp) hpa
      refine ⟨?_, ?_⟩
      · by_cases hqa : q = a
        · subst hqa
          rw [hBp]
          exact lt_of_lt_of_le hc.1 hBa
        · rw [hBp, hB q (by simp) hqa]
          exact hc.1
      · exact ih a hc.2 hl (List.nodup_cons.mp hd).2
          (fun x hx hxa => hB x (by simp [hx]) hxa) hBa

theorem linksOk_snoc (h h' : GenerationHandler) :
    ∀ (l : List Nat) (a b : Nat), linksOk h l = true → l.getLast? = some a →
      (∀ x ∈ l, x ≠ a → (getHold h' x).next = (getHold h x).next) →
      l.Nodup →
      (getHold h' a).next = some b → (getHold h' b).next = none →
      linksOk h' (l ++ [b]) = true := by
  intro l
  induction l with
  | nil => intro a b _ hl; simp at hl
  | cons p t ih =>
    intro a b hok hl hn hd hna hnb
    cases t with
    | nil =>
      rw [List.getLast?_singleton, Option.some_inj] at hl
      subst hl
      simp only [List.singleton_append]
      rw [linksOk_cons]
      refine ⟨by simp [hna], ?_⟩
      rw [linksOk_cons]
      exact ⟨by simp [hnb], rfl⟩
    | cons q t' =>
      rw [List.getLast?_cons_cons] at hl
      have hamem : a ∈ q :: t' := mem_of_getLast?_eq _ _ hl
      have hpa : p ≠ a := by
        rw [List.nodup_cons] at hd
        intro hpe
        exact hd.1 (hpe ▸ hamem)
      rw [linksOk_cons] at hok
      simp only [List.cons_append]
      rw [linksOk_cons]
      refine ⟨?_, ?_⟩
      · rw [hn p (by simp) hpa, hok.1]
        simp
      · exact ih a b hok.2 hl (fun x hx hxa => hn x (by simp [hx]) hxa)
          (List.nodup_cons.mp hd).2 hna hnb

theorem takeWhile_congr_of_mem (p q : Nat → Bool) :
    ∀ (l : List Nat), (∀ x ∈ l, p x = q x) → l.takeWhile p = l.takeWhile q := by
  intro l
  induction l with
  | nil => intro _; rfl
  | cons a t ih =>
    intro hpq
    rw [List.takeWhile_cons, List.takeWhile_cons, hpq a (by simp)]
    cases hq : q a with
    | false => simp
    | true => simp [ih (fun x hx => hpq x (by simp [hx]))]

theorem sweepLen_congr (h h' : GenerationHandler) (c : List Nat)
    (hr : ∀ x ∈ c, (getHold h' x).refCount = (getHold h x).refCount) :
    sweepLen h' c = sweepLen h c := by
  unfold sweepLen
  rw [takeWhile_congr_of_mem _ _ c.dropLast
    (fun x hx => by rw [hr x (List.dropLast_subset c hx)])]


/-! ## The retirement sweep: characterization of `updateLoop` -/

theorem updateLoop_char :
    ∀ (c : List Nat) (fuel : Nat) (h : GenerationHandler) (gs : List Guard) (f : List Nat),
      WFpre h gs c f → c.length ≤ fuel →
      WFpre (updateLoop fuel h) gs (c.drop (sweepLen h c))
        ((c.take (sweepLen h c)).reverse ++ f) ∧
      (updateLoop fuel h).generation = h.generation ∧
      (updateLoop fuel h).holds.length = h.holds.length ∧
      (updateLoop fuel h).firstUsedGeneration = h.firstUsedGeneration ∧
      (updateLoop fuel h).last = h.last ∧
      (∀ x, x ∉ c.take (sweepLen h c) → getHold (updateLoop fuel h) x = getHold h x) ∧
      (getHold h h.first).generation ≤
        (getHold (updateLoop fuel h) (updateLoop fuel h).first).generation := by
  intro c
  induction c with
  | nil =>
    intro fuel h gs f hwf _
    obtain ⟨hhead, _⟩ := hwf
    simp at hhead
  | cons i t ih =>
    intro fuel h gs f hwf hlen
    obtain ⟨hhead, hlast, hlinks, hfhead, hflinks, hbound, hnodup, hacc, hfree1,
      hchain, hlastgen, hguards⟩ := hwf
    rw [List.head?_cons, Option.some_inj] at hhead
    cases fuel with
    | zero => simp at hlen
    | succ m =>
    cases t with
    | nil =>
      rw [List.getLast?_singleton, Option.some_inj] at hlast
      have hfl : h.first = h.last := by rw [← hhead, ← hlast]
      have hres : updateLoop (m + 1) h = h := by
        unfold updateLoop
        rw [if_pos hfl]
      have hk : sweepLen h [i] = 0 := by simp [sweepLen]
      rw [hres, hk]
      refine ⟨⟨by simpa using hhead ▸ rfl, by simpa using hlast ▸ rfl, hlinks, hfhead,
        hflinks, hbound, hnodup, hacc, hfree1, hchain, hlastgen, hguards⟩,
        rfl, rfl, rfl, rfl, fun x _ => rfl, le_refl _⟩
    | cons j rest =>
      rw [List.getLast?_cons_cons] at hlast
      have hlastmem : h.last ∈ j :: rest := mem_of_getLast?_eq _ _ hlast
      have hnodup' : i ∉ (j :: rest) ++ f ∧ ((j :: rest) ++ f).Nodup := by
        rw [List.cons_append, List.nodup_cons] at hnodup
        exact hnodup
      have hne_i : ∀ x ∈ (j :: rest) ++ f, x ≠ i :=
        fun x hx he => absurd (he ▸ hx) hnodup'.1
      have hine : i ≠ h.last := by
        intro he
        exact hnodup'.1 (List.mem_append_left f (he ▸ hlastmem))
      have hfl : ¬ h.first = h.last := by
        rw [← hhead]
        exact hine
      have hmem_i : i ∈ i :: j :: rest := by simp
      have hacci : (getHold h i).refCount = 2 * pinsOf gs i := hacc i hmem_i
      have hv : valid (getHold h i).refCount = true := by
        rw [hacci]
        exact valid_two_mul _
      rw [linksOk_cons] at hlinks
      obtain ⟨hcc, hct⟩ := List.chain'_cons.mp hchain
      by_cases hz : (getHold h i).refCount = 0
      · -- head record has no readers: it is retired and the sweep recurses
        have hsi : setInvalidW (getHold h i).refCount = some (true, 1) := by
          simp [setInvalidW, hz, valid]
        have hlinks1 : (getHold h i).next = some j := by
          rw [hlinks.1]
          rfl
        have hibound : i < h.holds.length := hbound i (by simp)
        have hres : updateLoop (m + 1) h =
            updateLoop m { setHold h i { getHold h i with refCount := 1, next := h.free } with
              first := j, free := some i } := by
          conv_lhs => unfold updateLoop
          rw [if_neg hfl, ← hhead]
          simp only [hsi, hlinks1]
        set h2 : GenerationHandler :=
          { setHold h i { getHold h i with refCount := 1, next := h.free } with
            first := j, free := some i } with hh2
        have hget2ne : ∀ x, x ≠ i → getHold h2 x = getHold h x := by
          intro x hx
          exact getHold_setHold_ne h i x _ hx
        have hget2i : getHold h2 i = { getHold h i with refCount := 1, next := h.free } :=
          getHold_setHold_self h i _ hibound
        have hlen2 : h2.holds.length = h.holds.length := setHold_length h i _
        have wf2 : WFpre h2 gs (j :: rest) (i :: f) := by
          refine ⟨rfl, hlast, ?_, rfl, ?_, ?_, ?_, ?_, ?_, ?_, ?_, ?_⟩
          · rw [linksOk_congr h h2 (j :: rest)
              (fun x hx => by rw [hget2ne x (hne_i x (List.mem_append_left f hx))])]
            exact hlinks.2
          · rw [linksOk_cons]
            constructor
            · rw [hget2i]
              exact hfhead.symm
            · rw [linksOk_congr h h2 f
                (fun x hx => by rw [hget2ne x (hne_i x (List.mem_append_right _ hx))])]
              exact hflinks
          · intro x hx
            rw [hlen2]
            apply hbound
            simp only [List.mem_append, List.mem_cons] at hx ⊢
            tauto
          · exact (List.perm_middle.nodup_iff).mpr hnodup
          · intro x hx
            rw [hget2ne x (hne_i x (List.mem_append_left f hx))]
            exact hacc x (List.mem_cons_of_mem i hx)
          · intro x hx
            rcases List.mem_cons.mp hx with rfl | hxf
            · rw [hget2i]
            · rw [hget2ne x (hne_i x (List.mem_append_right _ hxf))]
              exact hfree1 x hxf
          · exact chainGen_congr h h2 (j :: rest)
              (fun x hx => by rw [hget2ne x (hne_i x (List.mem_append_left f hx))]) hct
          · have hl2 : h2.last = h.last := rfl
            rw [hl2, hget2ne h.last (Ne.symm hine)]
            exact hlastgen
          · rw [List.all_eq_true] at hguards ⊢
            intro g hg
            have hgall := hguards g hg
            cases hgh : g.hold with
            | none => simp [Option.all]
            | some x =>
              rw [hgh] at hgall
              simp only [Option.all] at hgall ⊢
              have hxmem : x ∈ i :: j :: rest := by simpa [List.contains] using hgall
              rcases List.mem_cons.mp hxmem with rfl | hx2
              · exfalso
                have hp := pinsOf_pos gs g x hg hgh
                have hz2 : 2 * pinsOf gs x = 0 := by
                  rw [← hacci]
                  exact hz
                omega
              · simpa [List.contains] using hx2
        have hlen2' : (j :: rest).length ≤ m := by
          simp only [List.length_cons] at hlen ⊢
          omega
        obtain ⟨ihwf, ihgen, ihlen, ihfug, ihlast, ihuntouched, ihgenle⟩ :=
          ih m h2 gs (i :: f) wf2 hlen2'
        have hswq : sweepLen h2 (j :: rest) = sweepLen h (j :: rest) :=
          sweepLen_congr h h2 (j :: rest)
            (fun x hx => by rw [hget2ne x (hne_i x (List.mem_append_left f hx))])
        rw [hswq] at ihwf ihuntouched
        have hsw : sweepLen h (i :: j :: rest) = sweepLen h (j :: rest) + 1 := by
          simp [sweepLen, List.dropLast_cons₂, List.takeWhile_cons, hz]
        rw [hres, hsw]
        rw [List.drop_succ_cons, List.take_succ_cons, List.reverse_cons, List.append_assoc,
          List.singleton_append]
        refine ⟨ihwf, ihgen, ihlen.trans hlen2, ihfug, ihlast, ?_, ?_⟩
        · intro x hx
          rw [List.mem_cons, not_or] at hx
          rw [ihuntouched x hx.2]
          exact hget2ne x hx.1
        · rw [← hhead]
          have hji : j ≠ i := hne_i j (List.mem_append_left f (by simp))
          have hgj : (getHold h2 j).generation = (getHold h j).generation := by
            rw [hget2ne j hji]
          refine le_trans (le_of_lt hcc) ?_
          rw [← hgj]
          exact ihgenle
      · -- head record still referenced: the sweep stops at once
        have hsi : setInvalidW (getHold h i).refCount =
            some (false, (getHold h i).refCount) := by
          simp [setInvalidW, hv, hz]
        have hres : updateLoop (m + 1) h = h := by
          conv_lhs => unfold updateLoop
          rw [if_neg hfl, ← hhead]
          simp only [hsi]
        have hk : sweepLen h (i :: j :: rest) = 0 := by
          simp [sweepLen, List.dropLast_cons₂, List.takeWhile_cons, hz]
        have hwf0 : WFpre h gs (i :: j :: rest) f :=
          ⟨by rw [List.head?_cons, hhead], by rw [List.getLast?_cons_cons]; exact hlast,
            (linksOk_cons h i (j :: rest)).mpr hlinks, hfhead, hflinks, hbound, hnodup,
            hacc, hfree1, hchain, hlastgen, hguards⟩
        rw [hres, hk]
        refine ⟨?_, rfl, rfl, rfl, rfl, fun x _ => rfl, le_refl _⟩
        simpa using hwf0

/-- Well-formedness `WFpre` only depends on the arena, the four pointer fields and the
generation counter, not on the stored watermark. -/
theorem WFpre_of_eq_fields (h h' : GenerationHandler) (gs : List Guard) (c f : List Nat)
    (hwf : WFpre h gs c f)
    (hholds : h'.holds = h.holds) (hfirst : h'.first = h.first)
    (hlast : h'.last = h.last) (hfree : h'.free = h.free)
    (hgen : h'.generation = h.generation) : WFpre h' gs c f := by
  have hget : ∀ x, getHold h' x = getHold h x := by
    intro x
    simp [getHold, hholds]
  obtain ⟨w1, w2, w3, w4, w5, w6, w7, w8, w9, w10, w11, w12⟩ := hwf
  refine ⟨?_, ?_, ?_, ?_, ?_, ?_, w7, ?_, ?_, ?_, ?_, w12⟩
  · rw [hfirst]; exact w1
  · rw [hlast]; exact w2
  · rw [linksOk_congr h h' c (fun x _ => by rw [hget x])]; exact w3
  · rw [hfree]; exact w4
  · rw [linksOk_congr h h' f (fun x _ => by rw [hget x])]; exact w5
  · intro x hx
    rw [hholds]
    exact w6 x hx
  · intro x hx
    rw [hget x]
    exact w8 x hx
  · intro x hx
    rw [hget x]
    exact w9 x hx
  · exact chainGen_congr h h' c (fun x _ => by rw [hget x]) w10
  · rw [hlast, hget h.last, hgen]
    exact w11

/-- Characterization of `updateFirstUsedGeneration`: the sweep retires the
maximal all-unreferenced proper prefix of the chain onto the freelist and the
watermark becomes the generation tag of the new `_first`. -/
theorem updateFUG_char (h : GenerationHandler) (gs : List Guard) (c f : List Nat)
    (hwf : WFpre h gs c f) :
    WF (updateFirstUsedGeneration h) gs (c.drop (sweepLen h c))
      ((c.take (sweepLen h c)).reverse ++ f) ∧
    (updateFirstUsedGeneration h).generation = h.generation ∧
    (updateFirstUsedGeneration h).holds.length = h.holds.length ∧
    (updateFirstUsedGeneration h).last = h.last ∧
    (∀ x, x ∉ c.take (sweepLen h c) → getHold (updateFirstUsedGeneration h) x = getHold h x) ∧
    (getHold h h.first).generation ≤ (updateFirstUsedGeneration h).firstUsedGeneration := by
  have hfuel : c.length ≤ h.holds.length := by
    have h1 : (c ++ f).length ≤ h.holds.length :=
      length_le_of_nodup_lt _ _ hwf.2.2.2.2.2.2.1 hwf.2.2.2.2.2.1
    rw [List.length_append] at h1
    omega
  obtain ⟨lwf, lgen, llen, lfug, llast, luntouched, lgenle⟩ :=
    updateLoop_char c h.holds.length h gs f hwf hfuel
  refine ⟨⟨WFpre_of_eq_fields _ _ gs _ _ lwf rfl rfl rfl rfl rfl, rfl⟩,
    lgen, llen, llast, luntouched, lgenle⟩

theorem chainFrom_eq (h : GenerationHandler) :
    ∀ (c : List Nat) (fuel : Nat) (i : Nat), linksOk h c = true → c.head? = some i →
      c.length ≤ fuel + 1 → chainFrom fuel h i = c := by
  intro c
  induction c with
  | nil =>
    intro fuel i _ hh
    simp at hh
  | cons a t ih =>
    intro fuel i hok hh hlen
    rw [List.head?_cons, Option.some_inj] at hh
    subst hh
    rw [linksOk_cons] at hok
    cases t with
    | nil =>
      have hnone : (getHold h a).next = none := by simpa using hok.1
      cases fuel with
      | zero => rfl
      | succ m =>
        unfold chainFrom
        rw [hnone]
    | cons b t' =>
      have hsome : (getHold h a).next = some b := by simpa using hok.1
      cases fuel with
      | zero => simp at hlen
      | succ m =>
        unfold chainFrom
        rw [hsome]
        show a :: chainFrom m h b = a :: b :: t'
        rw [ih m b hok.2 rfl (by simp at hlen ⊢; omega)]

/-- On a well-formed state, the fuel-bounded chain walk reads back exactly
the chain witness. -/
theorem chainList_eq (h : GenerationHandler) (gs : List Guard) (c f : List Nat)
    (hwf : WFpre h gs c f) : chainList h = c := by
  have hfuel : c.length ≤ h.holds.length := by
    have h1 : (c ++ f).length ≤ h.holds.length :=
      length_le_of_nodup_lt _ _ hwf.2.2.2.2.2.2.1 hwf.2.2.2.2.2.1
    rw [List.length_append] at h1
    omega
  exact chainFrom_eq h c h.holds.length h.first hwf.2.2.1 hwf.1 (by omega)

/-- Morph branch of `incGeneration`: when the last record has no live readers
it is re-tagged to the new generation in place (no link, no allocation) and
the retirement sweep runs.  Well-formedness is preserved with the same guard
multiset, the generation counter increases by exactly one, the watermark does
not decrease, and the chain does not grow. -/
theorem incGeneration_morph (h : GenerationHandler) (gs : List Guard) (c f : List Nat)
    (hwf : WF h gs c f) (hz : getRefCountW (getHold h h.last).refCount = 0) :
    ∃ c' f', WF (incGeneration h) gs c' f' ∧
      (incGeneration h).generation = h.generation + 1 ∧
      h.firstUsedGeneration ≤ (incGeneration h).firstUsedGeneration ∧
      c'.length ≤ c.length := by
  obtain ⟨hpre, hfug⟩ := hwf
  obtain ⟨w1, w2, w3, w4, w5, w6, w7, w8, w9, w10, w11, w12⟩ := hpre
  have hlastmem : h.last ∈ c := mem_of_getLast?_eq _ _ w2
  have hlb : h.last < h.holds.length := w6 h.last (List.mem_append_left f hlastmem)
  have hw0 : (getHold h h.last).refCount = 0 := by
    have hwl := w8 h.last hlastmem
    simp [getRefCountW] at hz
    omega
  have hndp := List.nodup_append.mp w7
  have hdisj : ∀ x ∈ f, x ≠ h.last :=
    fun x hx he => (hndp.2.2 (he ▸ hlastmem) hx).elim
  have hres : incGeneration h = updateFirstUsedGeneration
      (setHold { h with generation := h.generation + 1 } h.last
        { getHold h h.last with generation := h.generation + 1 }) := by
    simp [incGeneration, hz]
  set h1 : GenerationHandler := setHold { h with generation := h.generation + 1 } h.last
    { getHold h h.last with generation := h.generation + 1 } with hh1
  have hget1self : getHold h1 h.last =
      { getHold h h.last with generation := h.generation + 1 } :=
    getHold_setHold_self _ h.last _ hlb
  have hget1ne : ∀ x, x ≠ h.last → getHold h1 x = getHold h x :=
    fun x hx => getHold_setHold_ne _ h.last x _ hx
  have hgen1 : ∀ x ∈ c, x ≠ h.last → (getHold h1 x).generation = (getHold h x).generation :=
    fun x _ hx => by rw [hget1ne x hx]
  have wf1 : WFpre h1 gs c f := by
    refine ⟨w1, w2, ?_, w4, ?_, ?_, w7, ?_, ?_, ?_, ?_, w12⟩
    · have hn : ∀ x ∈ c, (getHold h1 x).next = (getHold h x).next := by
        intro x _
        by_cases hx : x = h.last
        · subst hx
          rw [hget1self]
        · rw [hget1ne x hx]
      rw [linksOk_congr h h1 c hn]
      exact w3
    · rw [linksOk_congr h h1 f (fun x hx => by rw [hget1ne x (hdisj x hx)])]
      exact w5
    · intro x hx
      rw [setHold_length]
      exact w6 x hx
    · intro x hx
      by_cases hxl : x = h.last
      · subst hxl
        rw [hget1self]
        exact w8 h.last hx
      · rw [hget1ne x hxl]
        exact w8 x hx
    · intro x hx
      rw [hget1ne x (hdisj x hx)]
      exact w9 x hx
    · refine chainGen_update_last (fun x => (getHold h x).generation)
        (fun x => (getHold h1 x).generation) c h.last w10 w2 hndp.1
        (fun x hx hxl => hgen1 x hx hxl) ?_
      show (getHold h h.last).generation ≤ (getHold h1 h.last).generation
      rw [hget1self, w11]
      exact Nat.le_succ _
    · show (getHold h1 h.last).generation = h.generation + 1
      rw [hget1self]
  have hfug1 : h1.firstUsedGeneration ≤ (getHold h1 h1.first).generation := by
    by_cases hfl : h.first = h.last
    · have : getHold h1 h1.first = { getHold h h.last with generation := h.generation + 1 } := by
        show getHold h1 h.first = _
        rw [hfl, hget1self]
      rw [this]
      show h.firstUsedGeneration ≤ h.generation + 1
      rw [hfug, hfl, w11]
      exact Nat.le_succ _
    · have : getHold h1 h1.first = getHold h h.first := by
        show getHold h1 h.first = _
        rw [hget1ne h.first hfl]
      rw [this]
      show h.firstUsedGeneration ≤ (getHold h h.first).generation
      rw [hfug]
  obtain ⟨uwf, ugen, ulen, ulast, uunt, ugenle⟩ := updateFUG_char h1 gs c f wf1
  refine ⟨c.drop (sweepLen h1 c), (c.take (sweepLen h1 c)).reverse ++ f, ?_, ?_, ?_, ?_⟩
  · rw [hres]
    exact uwf
  · rw [hres]
    exact ugen
  · rw [hres]
    exact le_trans hfug1 ugenle
  · rw [List.length_drop]
    omega

theorem allContains_append (gs : List Guard) (c d : List Nat)
    (hall : gs.all (fun g => g.hold.all (fun x => c.contains x)) = true) :
    gs.all (fun g => g.hold.all (fun x => (c ++ d).contains x)) = true := by
  rw [List.all_eq_true] at hall ⊢
  intro g hg
  have := hall g hg
  cases hgh : g.hold with
  | none => simp [Option.all]
  | some x =>
    rw [hgh] at this
    simp only [Option.all] at this ⊢
    have hx : x ∈ c := by simpa [List.contains] using this
    simpa [List.contains] using List.mem_append_left d hx

/-- Common tail of the linking branch of `incGeneration`: given the state
`h4` in which the fresh record `ni` (word 0, tagged with the next
generation, next null) has been linked behind the old last record and
published as `_last`, the final sweep yields a well-formed state, the
generation counter has increased by one, and the watermark has not
decreased. -/
theorem link_wf (h h4 : GenerationHandler) (gs : List Guard) (c f f' : List Nat) (ni : Nat)
    (hwf : WF h gs c f)
    (hfirst : h4.first = h.first)
    (hlast4 : h4.last = ni)
    (hgen4 : h4.generation = h.generation + 1)
    (hfree4 : h4.free = f'.head?)
    (hni : ni ∉ c)
    (hnodup4 : ((c ++ [ni]) ++ f').Nodup)
    (hbound4 : ∀ x ∈ (c ++ [ni]) ++ f', x < h4.holds.length)
    (hget4 : ∀ x, x ≠ ni → x ≠ h.last → getHold h4 x = getHold h x)
    (hget4last : getHold h4 h.last = { getHold h h.last with next := some ni })
    (hget4ni : getHold h4 ni = ⟨0, h.generation + 1, none⟩)
    (hf'w : ∀ x ∈ f', (getHold h4 x).refCount = 1)
    (hf'links : linksOk h4 f' = true) :
    WF (updateFirstUsedGeneration h4) gs ((c ++ [ni]).drop (sweepLen h4 (c ++ [ni])))
      (((c ++ [ni]).take (sweepLen h4 (c ++ [ni]))).reverse ++ f') ∧
    (updateFirstUsedGeneration h4).generation = h.generation + 1 ∧
    h.firstUsedGeneration ≤ (updateFirstUsedGeneration h4).firstUsedGeneration := by
  obtain ⟨hpre, hfug⟩ := hwf
  obtain ⟨w1, w2, w3, w4, w5, w6, w7, w8, w9, w10, w11, w12⟩ := hpre
  have hlastmem : h.last ∈ c := mem_of_getLast?_eq _ _ w2
  have hfirstmem : h.first ∈ c := by
    cases c with
    | nil => simp at w1
    | cons a c0 =>
      rw [List.head?_cons, Option.some_inj] at w1
      rw [← w1]
      simp
  have hndpc : c.Nodup := (List.nodup_append.mp hnodup4).1.of_append_left
  have hlastne : h.last ≠ ni := fun he => hni (he ▸ hlastmem)
  have hrc4 : ∀ x ∈ c, (getHold h4 x).refCount = (getHold h x).refCount := by
    intro x hx
    by_cases hxl : x = h.last
    · subst hxl
      rw [hget4last]
    · rw [hget4 x (fun he => hni (he ▸ hx)) hxl]
  have hgen4c : ∀ x ∈ c, (getHold h4 x).generation = (getHold h x).generation := by
    intro x hx
    by_cases hxl : x = h.last
    · subst hxl
      rw [hget4last]
    · rw [hget4 x (fun he => hni (he ▸ hx)) hxl]
  have wf4 : WFpre h4 gs (c ++ [ni]) f' := by
    refine ⟨?_, ?_, ?_, hfree4.symm, hf'links, ?_, hnodup4, ?_, hf'w, ?_, ?_, ?_⟩
    · cases c with
      | nil => simp at w1
      | cons a c0 =>
        rw [List.cons_append, List.head?_cons, hfirst]
        exact w1
    · rw [List.getLast?_concat, hlast4]
    · refine linksOk_snoc h h4 c h.last ni w3 w2 ?_ hndpc ?_ ?_
      · intro x hx hxl
        rw [hget4 x (fun he => hni (he ▸ hx)) hxl]
      · rw [hget4last]
      · rw [hget4ni]
    · exact hbound4
    · intro x hx
      rcases List.mem_append.mp hx with hxc | hxni
      · rw [hrc4 x hxc]
        exact w8 x hxc
      · rw [List.mem_singleton] at hxni
        subst hxni
        rw [hget4ni]
        rw [pinsOf_eq_zero gs c x w12 hni]
    · rw [List.chain'_append]
      refine ⟨chainGen_congr h h4 c hgen4c w10, by simp, ?_⟩
      intro x hx y hy
      rw [w2, Option.mem_def, Option.some_inj] at hx
      simp only [List.head?_cons, Option.mem_def, Option.some_inj] at hy
      subst hx
      subst hy
      rw [hgen4c h.last hlastmem, hget4ni, w11]
      exact Nat.lt_succ_self _
    · rw [hlast4, hget4ni, hgen4]
    · exact allContains_append gs c [ni] w12
  have hg4first : (getHold h4 h4.first).generation = (getHold h h.first).generation := by
    rw [hfirst]
    exact hgen4c h.first hfirstmem
  obtain ⟨uwf, ugen, ulen, ulast, uunt, ugenle⟩ := updateFUG_char h4 gs (c ++ [ni]) f' wf4
  refine ⟨uwf, by rw [ugen, hgen4], ?_⟩
  rw [hfug]
  rw [← hg4first]
  exact ugenle

theorem getHold_extend (h h' : GenerationHandler) (r : GenerationHold) (x : Nat)
    (hh : h'.holds = h.holds ++ [r]) (hx : x ≠ h.holds.length) :
    getHold h' x = getHold h x := by
  rcases Nat.lt_or_ge x h.holds.length with hlt | hge
  · simp [getHold, hh, List.getD_eq_getElem?_getD, List.getElem?_append_left hlt]
  · have hgt : h.holds.length < x := lt_of_le_of_ne hge (Ne.symm hx)
    simp [getHold, hh, List.getD_eq_getElem?_getD,
      List.getElem?_eq_none (l := h.holds ++ [r]) (n := x) (by simp; omega),
      List.getElem?_eq_none (l := h.holds) (n := x) (by omega)]

/-- Linking branch of `incGeneration`: when the last record still has live
readers, a record is taken from the freelist (or freshly allocated), tagged,
validated and linked, and the sweep runs.  Well-formedness is preserved with
the same guard multiset, the generation counter increases by exactly one and
the watermark does not decrease. -/
theorem incGeneration_link (h : GenerationHandler) (gs : List Guard) (c f : List Nat)
    (hwf : WF h gs c f) (hz : ¬ getRefCountW (getHold h h.last).refCount = 0) :
    ∃ c' f', WF (incGeneration h) gs c' f' ∧
      (incGeneration h).generation = h.generation + 1 ∧
      h.firstUsedGeneration ≤ (incGeneration h).firstUsedGeneration := by
  obtain ⟨hpre, hfug⟩ := hwf
  obtain ⟨w1, w2, w3, w4, w5, w6, w7, w8, w9, w10, w11, w12⟩ := hpre
  have hwf' : WF h gs c f := ⟨⟨w1, w2, w3, w4, w5, w6, w7, w8, w9, w10, w11, w12⟩, hfug⟩
  have hlastmem : h.last ∈ c := mem_of_getLast?_eq _ _ w2
  have hlb : h.last < h.holds.length := w6 h.last (List.mem_append_left f hlastmem)
  have hndp := List.nodup_append.mp w7
  cases hfr : h.free with
  | none =>
    have hf0 : f = [] := List.head?_eq_none_iff.mp (by rw [w4, hfr])
    subst hf0
    set h1 : GenerationHandler := { holds := h.holds ++ [GenerationHold.mk 1 0 none], generation := h.generation, firstUsedGeneration := h.firstUsedGeneration, last := h.last, first := h.first, free := none, numHolds := h.numHolds + 1 } with hh1
    have hw1 : getHold h1 h.holds.length = ⟨1, 0, none⟩ := by
      rw [hh1]
      simp [getHold, List.getD_eq_getElem?_getD, List.getElem?_concat_length]
    have hext : ∀ x, x ≠ h.holds.length → getHold h1 x = getHold h x := by
      intro x hx
      exact getHold_extend h h1 (GenerationHold.mk 1 0 none) x (by rw [hh1]) hx
    have hlen1 : h1.holds.length = h.holds.length + 1 := by
      rw [hh1]
      simp
    set h2 := setHold h1 h.holds.length ⟨0, h.generation + 1, none⟩ with hh2
    have hlb2 : h.last < h2.holds.length := by
      rw [hh2, setHold_length, hlen1]
      omega
    have hget2ni : getHold h2 h.holds.length = ⟨0, h.generation + 1, none⟩ := by
      rw [hh2]
      exact getHold_setHold_self h1 _ _ (by rw [hlen1]; omega)
    have hget2ne : ∀ x, x ≠ h.holds.length → getHold h2 x = getHold h x := by
      intro x hx
      rw [hh2, getHold_setHold_ne h1 _ x _ hx]
      exact hext x hx
    have hlastne : h.last ≠ h.holds.length := by omega
    have hget2last : getHold h2 h.last = getHold h h.last := hget2ne h.last hlastne
    set h4 := { setHold h2 h.last { getHold h2 h.last with next := some h.holds.length } with
      generation := h.generation + 1, last := h.holds.length } with hh4
    have hres : incGeneration h = updateFirstUsedGeneration h4 := by
      conv_lhs => simp [incGeneration, hz, hfr]
      rw [← hh1]
      simp only [hw1, setValidW, valid]
      norm_num
      rw [← hh2]
      rfl
    have hget4ne : ∀ x, x ≠ h.holds.length → x ≠ h.last → getHold h4 x = getHold h x := by
      intro x hxn hxl
      have e1 : getHold h4 x = getHold (setHold h2 h.last
          { getHold h2 h.last with next := some h.holds.length }) x := rfl
      rw [e1, getHold_setHold_ne h2 h.last x _ hxl]
      exact hget2ne x hxn
    have hget4last : getHold h4 h.last =
        { getHold h h.last with next := some h.holds.length } := by
      have e1 : getHold h4 h.last = getHold (setHold h2 h.last
          { getHold h2 h.last with next := some h.holds.length }) h.last := rfl
      rw [e1, getHold_setHold_self h2 h.last _ hlb2, hget2last]
    have hget4ni : getHold h4 h.holds.length = ⟨0, h.generation + 1, none⟩ := by
      have e1 : getHold h4 h.holds.length = getHold (setHold h2 h.last
          { getHold h2 h.last with next := some h.holds.length }) h.holds.length := rfl
      rw [e1, getHold_setHold_ne h2 h.last _ _ (Ne.symm hlastne)]
      exact hget2ni
    have hlen4 : h4.holds.length = h.holds.length + 1 := by
      have e1 : h4.holds.length = h2.holds.length := by
        rw [show h4.holds = (setHold h2 h.last
          { getHold h2 h.last with next := some h.holds.length }).holds from rfl, setHold_length]
      rw [e1, hh2, setHold_length, hlen1]
    have hnic : h.holds.length ∉ c := by
      intro hm
      exact absurd (w6 _ (List.mem_append_left [] hm)) (lt_irrefl _)
    have hnodup4 : ((c ++ [h.holds.length]) ++ ([] : List Nat)).Nodup := by
      rw [List.append_nil]
      refine List.nodup_append.mpr ⟨hndp.1, List.nodup_singleton _, ?_⟩
      intro a hac hal
      rw [List.mem_singleton] at hal
      subst hal
      exact hnic hac
    have hbound4 : ∀ x ∈ (c ++ [h.holds.length]) ++ ([] : List Nat), x < h4.holds.length := by
      intro x hx
      rw [hlen4]
      simp only [List.append_nil, List.mem_append, List.mem_singleton] at hx
      rcases hx with hx | rfl
      · exact Nat.lt_succ_of_lt (w6 x (List.mem_append_left [] hx))
      · exact Nat.lt_succ_self _
    have hfree4 : h4.free = ([] : List Nat).head? := rfl
    obtain ⟨r1, r2, r3⟩ := link_wf h h4 gs c [] [] h.holds.length hwf' rfl rfl rfl hfree4
      hnic hnodup4 hbound4 hget4ne hget4last hget4ni (by simp) rfl
    exact ⟨_, _, by rw [hres]; exact r1, by rw [hres]; exact r2, by rw [hres]; exact r3⟩
  | some fi =>
    cases f with
    | nil =>
      rw [hfr] at w4
      simp at w4
    | cons a f' =>
      have ha : a = fi := by
        rw [hfr, List.head?_cons, Option.some_inj] at w4
        exact w4
      subst ha
      have hfimem : a ∈ a :: f' := by simp
      have hwfi : (getHold h a).refCount = 1 := w9 a hfimem
      have hnic : a ∉ c := fun hm => hndp.2.2 hm hfimem
      have hlastnefi : h.last ≠ a := fun he => hnic (he ▸ hlastmem)
      have hfib : a < h.holds.length := w6 a (List.mem_append_right c hfimem)
      set h2 := setHold { h with free := (getHold h a).next } a
        ⟨0, h.generation + 1, none⟩ with hh2
      have hget2ni : getHold h2 a = ⟨0, h.generation + 1, none⟩ := by
        rw [hh2]
        exact getHold_setHold_self _ _ _ hfib
      have hget2ne : ∀ x, x ≠ a → getHold h2 x = getHold h x := by
        intro x hx
        rw [hh2]
        exact getHold_setHold_ne _ a x _ hx
      have hget2last : getHold h2 h.last = getHold h h.last := hget2ne h.last hlastnefi
      have hlb2 : h.last < h2.holds.length := by
        rw [hh2, setHold_length]
        exact hlb
      set h4 := { setHold h2 h.last { getHold h2 h.last with next := some a } with
        generation := h.generation + 1, last := a } with hh4
      have hres : incGeneration h = updateFirstUsedGeneration h4 := by
        conv_lhs => simp [incGeneration, hz, hfr]
        simp only [(show ∀ x, getHold { h with free := (getHold h a).next } x = getHold h x
          from fun _ => rfl), hwfi, setValidW, valid]
        norm_num
        rw [← hh2]
        rfl
      have hget4ne : ∀ x, x ≠ a → x ≠ h.last → getHold h4 x = getHold h x := by
        intro x hxn hxl
        have e1 : getHold h4 x = getHold (setHold h2 h.last
            { getHold h2 h.last with next := some a }) x := rfl
        rw [e1, getHold_setHold_ne h2 h.last x _ hxl]
        exact hget2ne x hxn
      have hget4last : getHold h4 h.last = { getHold h h.last with next := some a } := by
        have e1 : getHold h4 h.last = getHold (setHold h2 h.last
            { getHold h2 h.last with next := some a }) h.last := rfl
        rw [e1, getHold_setHold_self h2 h.last _ hlb2, hget2last]
      have hget4ni : getHold h4 a = ⟨0, h.generation + 1, none⟩ := by
        have e1 : getHold h4 a = getHold (setHold h2 h.last
            { getHold h2 h.last with next := some a }) a := rfl
        rw [e1, getHold_setHold_ne h2 h.last _ _ (Ne.symm hlastnefi)]
        exact hget2ni
      have hlen4 : h4.holds.length = h.holds.length := by
        have e1 : h4.holds.length = h2.holds.length := by
          rw [show h4.holds = (setHold h2 h.last
            { getHold h2 h.last with next := some a }).holds from rfl, setHold_length]
        rw [e1, hh2, setHold_length]
      have hnodup4 : ((c ++ [a]) ++ f').Nodup := by
        rw [List.append_assoc, List.singleton_append]
        exact w7
      have hbound4 : ∀ x ∈ (c ++ [a]) ++ f', x < h4.holds.length := by
        intro x hx
        rw [hlen4]
        apply w6
        simp only [List.mem_append, List.mem_singleton, List.mem_cons] at hx ⊢
        tauto
      have hfree4 : h4.free = f'.head? := by
        have e1 : h4.free = (getHold h a).next := rfl
        rw [e1]
        exact ((linksOk_cons h a f').mp w5).1
      have hf'w : ∀ x ∈ f', (getHold h4 x).refCount = 1 := by
        intro x hx
        have hxa : x ≠ a := fun he => (List.nodup_cons.mp hndp.2.1).1 (he ▸ hx)
        have hxl : x ≠ h.last := fun he =>
          hndp.2.2 (he ▸ hlastmem) (List.mem_cons_of_mem a (he ▸ hx))
        rw [hget4ne x hxa hxl]
        exact w9 x (List.mem_cons_of_mem a hx)
      have hf'links : linksOk h4 f' = true := by
        rw [linksOk_congr h h4 f' ?hn]
        · exact ((linksOk_cons h a f').mp w5).2
        case hn =>
          intro x hx
          have hxa : x ≠ a := fun he => (List.nodup_cons.mp hndp.2.1).1 (he ▸ hx)
          have hxl : x ≠ h.last := fun he =>
            hndp.2.2 (he ▸ hlastmem) (List.mem_cons_of_mem a (he ▸ hx))
          rw [hget4ne x hxa hxl]
      obtain ⟨r1, r2, r3⟩ := link_wf h h4 gs c (a :: f') f' a hwf' rfl rfl rfl hfree4
        hnic hnodup4 hbound4 hget4ne hget4last hget4ni hf'w hf'links
      exact ⟨_, _, by rw [hres]; exact r1, by rw [hres]; exact r2, by rw [hres]; exact r3⟩

/-- Either branch of `incGeneration` preserves well-formedness, increments
the generation counter by one, and never lowers the watermark. -/
theorem incGeneration_char (h : GenerationHandler) (gs : List Guard) (c f : List Nat)
    (hwf : WF h gs c f) :
    ∃ c' f', WF (incGeneration h) gs c' f' ∧
      (incGeneration h).generation = h.generation + 1 ∧
      h.firstUsedGeneration ≤ (incGeneration h).firstUsedGeneration := by
  by_cases hz : getRefCountW (getHold h h.last).refCount = 0
  · obtain ⟨c', f', ha, hb, hc, _⟩ := incGeneration_morph h gs c f hwf hz
    exact ⟨c', f', ha, hb, hc⟩
  · exact incGeneration_link h gs c f hwf hz

theorem pinsOf_append_one (gs : List Guard) (g : Guard) (x : Nat) :
    pinsOf (gs ++ [g]) x = pinsOf gs x + (if g.hold == some x then 1 else 0) := by
  simp only [pinsOf, List.filter_append, List.length_append]
  cases hg : (g.hold == some x) <;> simp [List.filter, hg]

theorem pinsOf_eraseIdx (gs : List Guard) :
    ∀ (k : Nat) (g : Guard), gs.get? k = some g → ∀ x,
      pinsOf gs x = pinsOf (gs.eraseIdx k) x + (if g.hold == some x then 1 else 0) := by
  induction gs with
  | nil =>
    intro k g hg
    simp at hg
  | cons a t ih =>
    intro k g hg x
    cases k with
    | zero =>
      rw [List.get?_cons_zero, Option.some_inj] at hg
      subst hg
      rw [List.eraseIdx_cons_zero]
      simp only [pinsOf, List.filter_cons]
      cases hm : (a.hold == some x) with
      | true =>
        have he : a.hold = some x := by simpa using hm
        simp [hm, he]
      | false =>
        have he : ¬ a.hold = some x := by simpa using hm
        simp [hm, he]
    | succ m =>
      rw [List.get?_cons_succ] at hg
      rw [List.eraseIdx_cons_succ]
      have hihx := ih m g hg x
      simp only [pinsOf, List.filter_cons] at hihx ⊢
      cases hm : (a.hold == some x) <;> cases hgx : (g.hold == some x) <;>
        simp [hm, hgx] at hihx ⊢ <;> omega

theorem headGen_le_mem (A : Nat → Nat) :
    ∀ (l : List Nat), l.Chain' (fun a b => A a < A b) → ∀ x, l.head? = some x →
      ∀ y ∈ l, A x ≤ A y := by
  intro l
  induction l with
  | nil =>
    intro _ x hx
    simp at hx
  | cons a t ih =>
    intro hc x hx y hy
    rw [List.head?_cons, Option.some_inj] at hx
    subst hx
    rcases List.mem_cons.mp hy with rfl | hyt
    · exact le_refl _
    · cases t with
      | nil => simp at hyt
      | cons b t' =>
        rw [List.chain'_cons] at hc
        exact le_of_lt (lt_of_lt_of_le hc.1 (ih hc.2 b rfl y hyt))

/-- From well-formed states, `takeGuard` always succeeds on the first
attempt: the last record's word is even (2 times its pin count), so it is
valid and the acquire pins it; the source's retry loop never runs. -/
theorem takeGuard_succeeds (h : GenerationHandler) (gs : List Guard) (c f : List Nat)
    (hwf : WF h gs c f) :
    (takeGuard h).2 = ⟨some h.last⟩ ∧
    (takeGuard h).1 = setHold h h.last
      { getHold h h.last with refCount := (getHold h h.last).refCount + 2 } := by
  have hlastmem : h.last ∈ c := mem_of_getLast?_eq _ _ hwf.1.2.1
  have hacc := hwf.1.2.2.2.2.2.2.2.1 h.last hlastmem
  have hv : valid (getHold h h.last).refCount = true := by
    rw [hacc]
    exact valid_two_mul _
  constructor
  · show (⟨if (acquireW (getHold h h.last).refCount).1 then some h.last else none⟩ : Guard) = _
    rw [acquireW, if_pos hv]
    rfl
  · show setHold h h.last
        { getHold h h.last with refCount := (acquireW (getHold h h.last).refCount).2 } = _
    rw [acquireW, if_pos hv]

/-- One step of the interleaved machine preserves the invariant and never
lowers the watermark. -/
theorem step_preserves (st : SimState) (op : Op) (hinv : Inv st) :
    Inv (step st op) ∧
    st.handler.firstUsedGeneration ≤ (step st op).handler.firstUsedGeneration := by
  obtain ⟨c, f, hwf⟩ := hinv
  obtain ⟨⟨w1, w2, w3, w4, w5, w6, w7, w8, w9, w10, w11, w12⟩, hfug⟩ := hwf
  have hwf' : WF st.handler st.guards c f :=
    ⟨⟨w1, w2, w3, w4, w5, w6, w7, w8, w9, w10, w11, w12⟩, hfug⟩
  have hlastmem : st.handler.last ∈ c := mem_of_getLast?_eq _ _ w2
  have hlb : st.handler.last < st.handler.holds.length :=
    w6 st.handler.last (List.mem_append_left f hlastmem)
  have hndp := List.nodup_append.mp w7
  cases op with
  | advance =>
    obtain ⟨c', f', ha, _, hc⟩ := incGeneration_char st.handler st.guards c f hwf'
    exact ⟨⟨c', f', ha⟩, hc⟩
  | takeG =>
    obtain ⟨hg, hh⟩ := takeGuard_succeeds st.handler st.guards c f hwf'
    have hstep : step st Op.takeG = ⟨setHold st.handler st.handler.last
        { getHold st.handler st.handler.last with
          refCount := (getHold st.handler st.handler.last).refCount + 2 },
        st.guards ++ [⟨some st.handler.last⟩]⟩ := by
      show (⟨(takeGuard st.handler).1, st.guards ++ [(takeGuard st.handler).2]⟩ : SimState) = _
      rw [hg, hh]
    rw [hstep]
    set hnew := setHold st.handler st.handler.last
      { getHold st.handler st.handler.last with
        refCount := (getHold st.handler st.handler.last).refCount + 2 } with hhn
    have hgetne : ∀ x, x ≠ st.handler.last → getHold hnew x = getHold st.handler x :=
      fun x hx => getHold_setHold_ne _ _ x _ hx
    have hgetself : getHold hnew st.handler.last =
        { getHold st.handler st.handler.last with
          refCount := (getHold st.handler st.handler.last).refCount + 2 } :=
      getHold_setHold_self _ _ _ hlb
    have hrc : ∀ x ∈ c, (getHold hnew x).refCount = 2 * pinsOf (st.guards ++ [⟨some st.handler.last⟩]) x := by
      intro x hx
      rw [pinsOf_append_one]
      by_cases hxl : x = st.handler.last
      · subst hxl
        rw [hgetself]
        show (getHold st.handler st.handler.last).refCount + 2 = _
        rw [w8 st.handler.last hx]
        simp [beq_iff_eq]
        ring
      · rw [hgetne x hxl, w8 x hx]
        have : ((Guard.mk (some st.handler.last)).hold == some x) = false := by
          simp [beq_iff_eq]
          exact fun he => hxl he.symm
        rw [this]
        simp
    refine ⟨⟨c, f, ⟨?_, ?_, ?_, ?_, ?_, ?_, w7, hrc, ?_, ?_, ?_, ?_⟩, ?_⟩, le_refl _⟩
    · exact w1
    · exact w2
    · rw [linksOk_congr st.handler hnew c ?hn]
      · exact w3
      case hn =>
        intro x _
        by_cases hxl : x = st.handler.last
        · subst hxl
          rw [hgetself]
        · rw [hgetne x hxl]
    · exact w4
    · rw [linksOk_congr st.handler hnew f
        (fun x hx => by rw [hgetne x (fun he => hndp.2.2 (he ▸ hlastmem) hx)])]
      exact w5
    · intro x hx
      rw [hhn, setHold_length]
      exact w6 x hx
    · intro x hx
      rw [hgetne x (fun he => hndp.2.2 (he ▸ hlastmem) hx)]
      exact w9 x hx
    · refine chainGen_congr st.handler hnew c ?_ w10
      intro x _
      by_cases hxl : x = st.handler.last
      · subst hxl
        rw [hgetself]
      · rw [hgetne x hxl]
    · show (getHold hnew st.handler.last).generation = st.handler.generation
      rw [hgetself]
      exact w11
    · rw [List.all_append, Bool.and_eq_true]
      refine ⟨w12, ?_⟩
      simp only [List.all_cons, List.all_nil, Option.all, Bool.and_true]
      simpa [List.contains] using hlastmem
    · show hnew.firstUsedGeneration = (getHold hnew hnew.first).generation
      have e1 : hnew.firstUsedGeneration = st.handler.firstUsedGeneration := rfl
      have e2 : hnew.first = st.handler.first := rfl
      rw [e1, e2, hfug]
      by_cases hxl : st.handler.first = st.handler.last
      · rw [hxl, hgetself]
      · rw [hgetne _ hxl]
  | dropG k =>
    cases hgk : st.guards.get? k with
    | none =>
      have hstep : step st (Op.dropG k) = st := by
        show (match st.guards.get? k with
          | none => st
          | some g => ⟨guardCleanup st.handler g, st.guards.eraseIdx k⟩) = st
        rw [hgk]
      rw [hstep]
      exact ⟨⟨c, f, hwf'⟩, le_refl _⟩
    | some g =>
      have hstep : step st (Op.dropG k) =
          ⟨guardCleanup st.handler g, st.guards.eraseIdx k⟩ := by
        show (match st.guards.get? k with
          | none => st
          | some g => ⟨guardCleanup st.handler g, st.guards.eraseIdx k⟩) = _
        rw [hgk]
      rw [hstep]
      have hgmem : g ∈ st.guards := List.get?_mem hgk
      have hsub : ∀ g' ∈ st.guards.eraseIdx k, g' ∈ st.guards :=
        fun g' hg' => (List.eraseIdx_sublist st.guards k).subset hg'
      have hallsub : (st.guards.eraseIdx k).all
          (fun g' => g'.hold.all (fun i => c.contains i)) = true := by
        rw [List.all_eq_true] at w12 ⊢
        exact fun g' hg' => w12 g' (hsub g' hg')
      cases hgh : g.hold with
      | none =>
        have hcl : guardCleanup st.handler g = st.handler := by
          rw [guardCleanup, hgh]
        rw [hcl]
        have hrc : ∀ x ∈ c, (getHold st.handler x).refCount =
            2 * pinsOf (st.guards.eraseIdx k) x := by
          intro x hx
          have := pinsOf_eraseIdx st.guards k g hgk x
          rw [hgh] at this
          simp at this
          rw [w8 x hx, this]
        exact ⟨⟨c, f, ⟨w1, w2, w3, w4, w5, w6, w7, hrc, w9, w10, w11, hallsub⟩, hfug⟩,
          le_refl _⟩
      | some i =>
        have himem : i ∈ c := by
          rw [List.all_eq_true] at w12
          have := w12 g hgmem
          rw [hgh] at this
          simp only [Option.all] at this
          simpa [List.contains] using this
        have hib : i < st.handler.holds.length := w6 i (List.mem_append_left f himem)
        have hpins : 0 < pinsOf st.guards i := pinsOf_pos st.guards g i hgmem hgh
        have hcl : guardCleanup st.handler g = setHold st.handler i
            { getHold st.handler i with
              refCount := releaseW (getHold st.handler i).refCount } := by
          rw [guardCleanup, hgh]
        rw [hcl]
        set hnew := setHold st.handler i
          { getHold st.handler i with
            refCount := releaseW (getHold st.handler i).refCount } with hhn
        have hgetne : ∀ x, x ≠ i → getHold hnew x = getHold st.handler x :=
          fun x hx => getHold_setHold_ne _ _ x _ hx
        have hgetself : getHold hnew i = { getHold st.handler i with
            refCount := releaseW (getHold st.handler i).refCount } :=
          getHold_setHold_self _ _ _ hib
        have hinotf : ∀ x ∈ f, x ≠ i := fun x hx he => hndp.2.2 (he ▸ himem) hx
        have hrc : ∀ x ∈ c, (getHold hnew x).refCount =
            2 * pinsOf (st.guards.eraseIdx k) x := by
          intro x hx
          have hpe := pinsOf_eraseIdx st.guards k g hgk x
          by_cases hxi : x = i
          · subst hxi
            rw [hgetself]
            show releaseW (getHold st.handler x).refCount = _
            rw [releaseW, w8 x hx]
            rw [hgh] at hpe
            simp [beq_iff_eq] at hpe
            omega
          · rw [hgetne x hxi, w8 x hx]
            rw [hgh] at hpe
            have : ((some i == some x) : Bool) = false := by
              simp [beq_iff_eq]
              exact fun he => hxi he.symm
            rw [this] at hpe
            simp at hpe
            rw [hpe]
        refine ⟨⟨c, f, ⟨w1, w2, ?_, w4, ?_, ?_, w7, hrc, ?_, ?_, ?_, hallsub⟩, ?_⟩, le_refl _⟩
        · rw [linksOk_congr st.handler hnew c ?hn]
          · exact w3
          case hn =>
            intro x _
            by_cases hxi : x = i
            · subst hxi
              rw [hgetself]
            · rw [hgetne x hxi]
        · rw [linksOk_congr st.handler hnew f (fun x hx => by rw [hgetne x (hinotf x hx)])]
          exact w5
        · intro x hx
          rw [hhn, setHold_length]
          exact w6 x hx
        · intro x hx
          rw [hgetne x (hinotf x hx)]
          exact w9 x hx
        · refine chainGen_congr st.handler hnew c ?_ w10
          intro x _
          by_cases hxi : x = i
          · subst hxi
            rw [hgetself]
          · rw [hgetne x hxi]
        · show (getHold hnew hnew.last).generation = hnew.generation
          have e1 : hnew.last = st.handler.last := rfl
          rw [e1]
          by_cases hxi : st.handler.last = i
          · rw [hxi, hgetself]
            show (getHold st.handler i).generation = hnew.generation
            rw [← hxi, w11]
            rfl
          · rw [hgetne _ hxi]
            exact w11
        · show hnew.firstUsedGeneration = (getHold hnew hnew.first).generation
          have e1 : hnew.firstUsedGeneration = st.handler.firstUsedGeneration := rfl
          have e2 : hnew.first = st.handler.first := rfl
          rw [e1, e2, hfug]
          by_cases hxi : st.handler.first = i
          · rw [hxi, hgetself]
          · rw [hgetne _ hxi]

theorem chain'_two (A : Nat → Nat) (a b : Nat) (hab : A a < A b) :
    List.Chain' (fun x y => A x < A y) [a, b] := by
  rw [List.chain'_cons]
  exact ⟨hab, List.chain'_singleton _⟩

theorem refCountWalk_none (fuel : Nat) (h : GenerationHandler) (gen : Nat) :
    refCountWalk fuel h none gen = 0 := by
  cases fuel <;> rfl

theorem wf_initial : WF initialHandler [] [0] [] := by
  refine ⟨⟨by decide, by decide, by decide, by decide, by decide, by decide, by decide,
    by decide, by decide, List.chain'_singleton _, by decide, by decide⟩, by decide⟩

theorem inv_init : Inv initSim :=
  ⟨[0], [], wf_initial⟩

theorem run_preserves (ops : List Op) : ∀ st : SimState, Inv st →
    Inv (run st ops) ∧
    st.handler.firstUsedGeneration ≤ (run st ops).handler.firstUsedGeneration := by
  induction ops with
  | nil =>
    intro st h
    exact ⟨h, le_refl _⟩
  | cons op t ih =>
    intro st h
    obtain ⟨h1, h2⟩ := step_preserves st op h
    obtain ⟨h3, h4⟩ := ih (step st op) h1
    exact ⟨h3, le_trans h2 h4⟩

theorem drop_takeWhile_length (p : Nat → Bool) :
    ∀ (l : List Nat), l.drop (l.takeWhile p).length = l.dropWhile p := by
  intro l
  induction l with
  | nil => rfl
  | cons a t ih =>
    rw [List.takeWhile_cons, List.dropWhile_cons]
    by_cases hp : p a = true
    · rw [if_pos hp, if_pos hp, List.length_cons, List.drop_succ_cons]
      exact ih
    · rw [if_neg hp, if_neg hp]
      rfl

theorem take_takeWhile_length (p : Nat → Bool) :
    ∀ (l : List Nat), l.take (l.takeWhile p).length = l.takeWhile p := by
  intro l
  induction l with
  | nil => rfl
  | cons a t ih =>
    rw [List.takeWhile_cons]
    by_cases hp : p a = true
    · rw [if_pos hp, List.length_cons, List.take_succ_cons, ih]
    · rw [if_neg hp]
      rfl

theorem dropWhile_head_not (p : Nat → Bool) :
    ∀ (l : List Nat) (x : Nat), (l.dropWhile p).head? = some x → p x = false := by
  intro l
  induction l with
  | nil =>
    intro x hx
    simp at hx
  | cons a t ih =>
    intro x hx
    rw [List.dropWhile_cons] at hx
    by_cases hp : p a = true
    · rw [if_pos hp] at hx
      exact ih x hx
    · rw [if_neg hp] at hx
      rw [List.head?_cons, Option.some_inj] at hx
      subst hx
      simpa using hp

theorem refCountWalk_chain (h : GenerationHandler) (gs : List Guard) :
    ∀ (c : List Nat) (fuel : Nat) (i gen : Nat),
      linksOk h c = true → c.head? = some i → c.length ≤ fuel →
      (∀ x ∈ c, (getHold h x).refCount = 2 * pinsOf gs x) →
      refCountWalk fuel h (some i) gen =
        (match c.find? (fun x => (getHold h x).generation == gen) with
         | some x => pinsOf gs x
         | none => 0) := by
  intro c
  induction c with
  | nil =>
    intro fuel i gen _ hh
    simp at hh
  | cons a t ih =>
    intro fuel i gen hok hh hlen hacc
    rw [List.head?_cons, Option.some_inj] at hh
    subst hh
    rw [linksOk_cons] at hok
    cases fuel with
    | zero => simp at hlen
    | succ m =>
    unfold refCountWalk
    by_cases hg : (getHold h a).generation = gen
    · rw [if_pos hg]
      rw [List.find?_cons_of_pos _ (by simpa using hg)]
      show getRefCountW (getHold h a).refCount = pinsOf gs a
      rw [hacc a (by simp), getRefCountW]
      omega
    · rw [if_neg hg]
      rw [List.find?_cons_of_neg _ (by simpa using hg)]
      cases t with
      | nil =>
        have hnone : (getHold h a).next = none := by simpa using hok.1
        rw [hnone, refCountWalk_none]
        rfl
      | cons b t' =>
        have hsome : (getHold h a).next = some b := by simpa using hok.1
        rw [hsome]
        exact ih m b gen hok.2 rfl (by simp at hlen ⊢; omega)
          (fun x hx => hacc x (by simp [hx]))

/-! ## The remaining claims -/

/-- C2: the sweep inside `advance` starts at `first` and, while
`first != last`, tries to mark `first` invalid; on success the record is
moved to the freelist (its word becomes the invalid value 1) and `first`
advances to its `next`; on the first failure it stops immediately without
skipping ahead.  The retired records are exactly the maximal prefix of
reader-free records strictly before `last` (`sweepLen`, a `takeWhile`);
every retired record had a zero word at sweep time; the freelist receives
them (newest retiree at its head, correctly linked); the record the sweep
stops at is either `last` itself or one whose word was still nonzero; the
surviving records are untouched; and afterwards `first_used_generation`
equals the generation tag of the record `first` then points to. -/
theorem retirement_sweep (h : GenerationHandler) (gs : List Guard) (c f : List Nat)
    (hwf : WFpre h gs c f) :
    (c.drop (sweepLen h c)).head? = some (updateFirstUsedGeneration h).first ∧
    (∀ x ∈ c.take (sweepLen h c), (getHold h x).refCount = 0) ∧
    (∀ x ∈ c.take (sweepLen h c), (getHold (updateFirstUsedGeneration h) x).refCount = 1) ∧
    (updateFirstUsedGeneration h).free = ((c.take (sweepLen h c)).reverse ++ f).head? ∧
    linksOk (updateFirstUsedGeneration h) ((c.take (sweepLen h c)).reverse ++ f) = true ∧
    ((updateFirstUsedGeneration h).first = h.last ∨
      (getHold h (updateFirstUsedGeneration h).first).refCount ≠ 0) ∧
    (∀ x, x ∉ c.take (sweepLen h c) → getHold (updateFirstUsedGeneration h) x = getHold h x) ∧
    (updateFirstUsedGeneration h).firstUsedGeneration =
      (getHold (updateFirstUsedGeneration h) (updateFirstUsedGeneration h).first).generation := by
  obtain ⟨uwf, ugen, ulen, ulast, uunt, ugenle⟩ := updateFUG_char h gs c f hwf
  obtain ⟨⟨u1, u2, u3, u4, u5, u6, u7, u8, u9, u10, u11, u12⟩, ufug⟩ := uwf
  have hp : ∀ x ∈ c.take (sweepLen h c), (getHold h x).refCount = 0 := by
    intro x hx
    have h1 : c.take (sweepLen h c) =
        c.dropLast.takeWhile (fun i => (getHold h i).refCount == 0) := by
      rw [sweepLen]
      have h2 := take_takeWhile_length (fun i => (getHold h i).refCount == 0) c.dropLast
      calc c.take (c.dropLast.takeWhile (fun i => (getHold h i).refCount == 0)).length
          = (c.dropLast ++ [h.last]).take
              (c.dropLast.takeWhile (fun i => (getHold h i).refCount == 0)).length := by
            rw [List.dropLast_append_getLast? h.last (Option.mem_def.mpr hwf.2.1)]
        _ = c.dropLast.take
              (c.dropLast.takeWhile (fun i => (getHold h i).refCount == 0)).length := by
            rw [List.take_append_of_le_length]
            exact List.Sublist.length_le (List.takeWhile_sublist _)
        _ = _ := h2
    rw [h1] at hx
    have := List.mem_takeWhile_imp hx
    simpa using this
  refine ⟨u1, hp, ?_, u4.symm, u5, ?_, uunt, ufug⟩
  · intro x hx
    exact u9 x (List.mem_append_left f (List.mem_reverse.mpr hx))
  · have hsplit : c.drop (sweepLen h c) =
        (c.dropLast.dropWhile (fun i => (getHold h i).refCount == 0)) ++ [h.last] := by
      rw [sweepLen]
      calc c.drop (c.dropLast.takeWhile (fun i => (getHold h i).refCount == 0)).length
          = (c.dropLast ++ [h.last]).drop
              (c.dropLast.takeWhile (fun i => (getHold h i).refCount == 0)).length := by
            rw [List.dropLast_append_getLast? h.last (Option.mem_def.mpr hwf.2.1)]
        _ = c.dropLast.drop
              (c.dropLast.takeWhile (fun i => (getHold h i).refCount == 0)).length
              ++ [h.last] := by
            rw [List.drop_append_of_le_length]
            exact List.Sublist.length_le (List.takeWhile_sublist _)
        _ = _ := by rw [drop_takeWhile_length]
    rw [hsplit] at u1
    cases hdw : c.dropLast.dropWhile (fun i => (getHold h i).refCount == 0) with
    | nil =>
      left
      rw [hdw] at u1
      simp at u1
      exact u1.symm
    | cons y ys =>
      right
      rw [hdw] at u1
      rw [List.cons_append, List.head?_cons, Option.some_inj] at u1
      have hy : ((getHold h y).refCount == 0) = false :=
        dropWhile_head_not _ c.dropLast y (by rw [hdw]; rfl)
      rw [← u1]
      simpa using hy

/-- The handler reached by `[takeG, advance]` is well-formed with chain
`[0, 1]`, an empty freelist and one guard pinning record 0. -/
theorem wf_after_take_advance :
    WF (run initSim [Op.takeG, Op.advance]).handler
      (run initSim [Op.takeG, Op.advance]).guards [0, 1] [] := by
  refine ⟨⟨by decide, by decide, by decide, by decide, by decide, by decide, by decide,
    by decide, by decide, ?_, by decide, by decide⟩, by decide⟩
  exact chain'_two
    (fun x => (getHold (run initSim [Op.takeG, Op.advance]).handler x).generation)
    0 1 (by decide)

/-- Witness for C2 on the `[takeG, advance]` state. -/
theorem retirement_sweep_witness :
    WF (run initSim [Op.takeG, Op.advance]).handler
      (run initSim [Op.takeG, Op.advance]).guards [0, 1] [] ∧
    ((([0, 1] : List Nat).drop (sweepLen (run initSim [Op.takeG, Op.advance]).handler [0, 1])).head? =
      some (updateFirstUsedGeneration (run initSim [Op.takeG, Op.advance]).handler).first) :=
  ⟨wf_after_take_advance, (retirement_sweep (run initSim [Op.takeG, Op.advance]).handler
    (run initSim [Op.takeG, Op.advance]).guards [0, 1] [] wf_after_take_advance.1).1⟩

/-- C1: in every state reachable by interleaved `takeGuard`, guard-release
and `advance` steps, every live guard pins a record whose generation tag is
at least `first_used_generation`; since this holds after every step, the
watermark never exceeds the pinned generation while the guard is alive. -/
theorem no_premature_reclamation (ops : List Op) (g : Guard) (i : Nat)
    (hg : g ∈ (run initSim ops).guards) (hh : g.hold = some i) :
    (run initSim ops).handler.firstUsedGeneration ≤
      (getHold (run initSim ops).handler i).generation := by
  obtain ⟨⟨c, f, hwf⟩, _⟩ := run_preserves ops initSim inv_init
  obtain ⟨⟨w1, w2, w3, w4, w5, w6, w7, w8, w9, w10, w11, w12⟩, hfug⟩ := hwf
  have himem : i ∈ c := by
    rw [List.all_eq_true] at w12
    have := w12 g hg
    rw [hh] at this
    simp only [Option.all] at this
    simpa [List.contains] using this
  rw [hfug]
  exact headGen_le_mem (fun x => (getHold (run initSim ops).handler x).generation)
    c w10 (run initSim ops).handler.first w1 i himem

/-- Witness for C1 after one `takeGuard`: the guard pins record 0. -/
theorem no_premature_reclamation_witness :
    Guard.mk (some 0) ∈ (run initSim [Op.takeG]).guards ∧
    (run initSim [Op.takeG]).handler.firstUsedGeneration ≤
      (getHold (run initSim [Op.takeG]).handler 0).generation :=
  ⟨by decide, no_premature_reclamation [Op.takeG] ⟨some 0⟩ 0 (by decide) rfl⟩

/-- C3: `first_used_generation` is non-decreasing across every operation
sequence on one handler: the value after `ops ++ more` is at least the
value observed after `ops`. -/
theorem watermark_monotone (ops more : List Op) :
    (run initSim ops).handler.firstUsedGeneration ≤
      (run initSim (ops ++ more)).handler.firstUsedGeneration := by
  have h1 := run_preserves ops initSim inv_init
  have h2 := run_preserves more (run initSim ops) h1.1
  show (run initSim ops).handler.firstUsedGeneration ≤
    (List.foldl step initSim (ops ++ more)).handler.firstUsedGeneration
  rw [List.foldl_append]
  exact h2.2

/-- C4 (amended): when `advance` runs with the last record's live-reader
count 0, the morph path is taken: the chain does not grow (its length after
the call is at most the length before, the sweep may shrink it) and the
generation counter increases by exactly 1. -/
theorem morph_no_growth (h : GenerationHandler) (gs : List Guard) (c f : List Nat)
    (hwf : WF h gs c f) (hz : getRefCountW (getHold h h.last).refCount = 0) :
    (incGeneration h).generation = h.generation + 1 ∧
    (chainList (incGeneration h)).length ≤ (chainList h).length := by
  obtain ⟨c', f', hwf', hgen, _, hlen⟩ := incGeneration_morph h gs c f hwf hz
  rw [chainList_eq (incGeneration h) gs c' f' hwf'.1, chainList_eq h gs c f hwf.1]
  exact ⟨hgen, hlen⟩

/-- Witness for C4's amended theorem on the fresh handler (no readers). -/
theorem morph_no_growth_witness :
    getRefCountW (getHold initialHandler initialHandler.last).refCount = 0 ∧
    ((incGeneration initialHandler).generation = initialHandler.generation + 1 ∧
     (chainList (incGeneration initialHandler)).length ≤ (chainList initialHandler).length) :=
  ⟨by decide, morph_no_growth initialHandler [] [0] [] wf_initial (by decide)⟩

/-- C7: `getGenerationRefCount gen` returns 0 when `gen` is newer than the
current generation or older than the watermark, with newness and oldness
decided by 64-bit signed subtraction of the counters (`sgtGen`); otherwise
it walks the live chain and returns the live-reader count of the record
whose generation tag equals `gen` — which on a well-formed state is the
number of live guards pinning that record — or 0 when no record matches. -/
theorem generation_ref_count_range (h : GenerationHandler) (gs : List Guard)
    (c f : List Nat) (hwf : WF h gs c f) (gen : Nat) :
    getGenerationRefCount h gen =
      if sgtGen gen h.generation then 0
      else if sgtGen h.firstUsedGeneration gen then 0
      else
        match c.find? (fun i => (getHold h i).generation == gen) with
        | some i => pinsOf gs i
        | none => 0 := by
  obtain ⟨⟨w1, w2, w3, w4, w5, w6, w7, w8, w9, w10, w11, w12⟩, hfug⟩ := hwf
  have hfuel : c.length ≤ h.holds.length := by
    have h1 : (c ++ f).length ≤ h.holds.length := length_le_of_nodup_lt _ _ w7 w6
    rw [List.length_append] at h1
    omega
  rw [getGenerationRefCount]
  by_cases h1 : sgtGen gen h.generation = true
  · rw [if_pos h1, if_pos h1]
  · rw [if_neg h1, if_neg h1]
    by_cases h2 : sgtGen h.firstUsedGeneration gen = true
    · rw [if_pos h2, if_pos h2]
    · rw [if_neg h2, if_neg h2]
      exact refCountWalk_chain h gs c h.holds.length h.first gen w3 w1 hfuel w8

/-- Witness for C7 on the `[takeG, advance]` state: generation 0 is in
range and its record is pinned by exactly one guard. -/
theorem generation_ref_count_range_witness :
    WF (run initSim [Op.takeG, Op.advance]).handler
      (run initSim [Op.takeG, Op.advance]).guards [0, 1] [] ∧
    getGenerationRefCount (run initSim [Op.takeG, Op.advance]).handler 0 =
      (if sgtGen 0 (run initSim [Op.takeG, Op.advance]).handler.generation then 0
       else if sgtGen (run initSim [Op.takeG, Op.advance]).handler.firstUsedGeneration 0 then 0
       else
         match ([0, 1] : List Nat).find?
             (fun i => (getHold (run initSim [Op.takeG, Op.advance]).handler i).generation == 0) with
         | some i => pinsOf (run initSim [Op.takeG, Op.advance]).guards i
         | none => 0) :=
  ⟨wf_after_take_advance, generation_ref_count_range (run initSim [Op.takeG, Op.advance]).handler
    (run initSim [Op.takeG, Op.advance]).guards [0, 1] [] wf_after_take_advance 0⟩

end Vespalib
